import Mathlib

/-
Verification of the bitmap-to-raster image encoder of
`src/main/python/escpos/commandset/generic.py` (class `Generic`):
the methods `_check_image_size`, `_print_image` and
`_convert_and_print_image`.

Modelling conventions:
* A pixel grid (`PIL.Image`-like object) is a structure with `width`,
  `height` and a pixel lookup; `im.size[0]` is `width`, `im.size[1]` is
  `height`, `im.getpixel((x, y))` is `getpixel x y`.
* The bit string `pix_line` (a Python string of the characters '0'/'1')
  is a `List Bool`, `true` standing for the character '1'.
* Byte strings handed to the external sink `self._write` are lists of
  byte values (`List Nat`); the sequence of write calls performed by one
  encode is a `List (List Nat)` in call order.  The `"%02X" ... decode('hex')`
  round trip of the source turns the numeric fields into single bytes
  whenever the field value is below 256, which holds in every situation
  the theorems below speak about, so header fields are modelled as their
  numeric values.
* Python 2 integer division `/` on non-negative operands is `Nat`
  division; a `raise` is the `Except.error` branch, taken before any
  write happens, so an `Except.error` result models "the sink received
  zero write calls".
-/

namespace Escpos

/-- A decoded image as consumed by `_convert_and_print_image`:
`size = (width, height)` and a per-pixel RGB lookup. -/
structure Image where
  width : Nat
  height : Nat
  getpixel : Nat → Nat → Nat × Nat × Nat

/-- `_check_image_size(size)` (generic.py lines 756-767): the padding
calculator.  Python 2 `/` on ints is floor division, hence `Nat` division. -/
def check_image_size (size : Nat) : Nat × Nat :=
  if size % 32 == 0 then
    (0, 0)
  else
    let image_border := 32 - size % 32
    if image_border % 2 == 0 then
      (image_border / 2, image_border / 2)
    else
      (image_border / 2, image_border / 2 + 1)

/-- The string `im_pattern = "1X0"` of `_convert_and_print_image`
(line 821). -/
def im_pattern : List Char := ['1', 'X', '0']

/-- `pattern_len = len(im_pattern)` (line 822). -/
def pattern_len : Nat := im_pattern.length

/-- The luminance sum `im_color = RGB[0] + RGB[1] + RGB[2]` (line 820). -/
def im_color (im : Image) (x y : Nat) : Nat :=
  (im.getpixel x y).1 + (im.getpixel x y).2.1 + (im.getpixel x y).2.2

/-- The inner `for x in range(pattern_len)` threshold loop of
`_convert_and_print_image` (lines 824-833), run over the remaining list
of band indices; returns the characters it appends to `pix_line`
(as bits).  The first branch is `im_color <= 255 * 3 / pattern_len * (x + 1)`
followed by `break`; the `elif` branch `im_color > 765 and im_color <= 765`
is kept verbatim (it is unsatisfiable); falling off the loop appends
nothing.  The `"%d" % switch` in the `"X"` case appends '1' exactly when
`switch = 1`. -/
def threshold_loop (c : Nat) (switch : Int) : List Nat → List Bool
  | [] => []
  | x :: rest =>
    if c ≤ 255 * 3 / pattern_len * (x + 1) then
      if im_pattern.getD x ' ' = 'X' then
        [decide (switch = 1)]
      else
        [decide (im_pattern.getD x ' ' = '1')]
    else if 255 * 3 / pattern_len * pattern_len < c ∧ c ≤ 255 * 3 then
      [decide (im_pattern.getLastD ' ' = '1')]
    else
      threshold_loop c switch rest

/-- One iteration of the pixel loop of `_convert_and_print_image`
(lines 817-833): bump `img_size[0]` (the `Nat` component, always 1),
toggle `switch = (switch - 1) * (-1)` BEFORE the band test, then run the
threshold loop over the band indices `range(pattern_len)`.  Returns
(appended bits, new switch). -/
def pixel_step (im : Image) (y x : Nat) (switch : Int) : List Bool × Int :=
  let switch1 := (switch - 1) * (-1)
  (threshold_loop (im_color im x y) switch1 (List.range pattern_len), switch1)

/-- The `for x in range(im.size[0])` loop of `_convert_and_print_image`
(lines 817-833) over the remaining x coordinates, threading `switch`.
Returns (bits appended to `pix_line`, final `switch`, amount added to
`img_size[0]`, i.e. one per pixel). -/
def pixel_loop (im : Image) (y : Nat) (switch : Int) : List Nat → List Bool × Int × Nat
  | [] => ([], switch, 0)
  | x :: xs =>
    let p := pixel_step im y x switch
    let r := pixel_loop im y p.2 xs
    (p.1 ++ r.1, r.2.1, r.2.2 + 1)

/-- One iteration of the row loop of `_convert_and_print_image`
(lines 813-835): append `im_left` (`im_border[0]` zero characters), run
the pixel loop, append `im_right` (`im_border[1]` zero characters);
`img_size[0]` grows by `im_border[0]`, one per pixel, and `im_border[1]`.
Returns (bits appended to `pix_line`, final `switch`, amount added to
`img_size[0]`). -/
def row_step (im : Image) (im_border : Nat × Nat) (y : Nat) (switch : Int) :
    List Bool × Int × Nat :=
  let r := pixel_loop im y switch (List.range im.width)
  (List.replicate im_border.1 false ++ r.1 ++ List.replicate im_border.2 false,
   r.2.1,
   im_border.1 + r.2.2 + im_border.2)

/-- The `for y in range(im.size[1])` loop of `_convert_and_print_image`
(lines 813-835) over the remaining y coordinates.  Returns
(`pix_line`, final `switch`, `img_size[0]`, `img_size[1]`);
`img_size[1]` grows by one per row. -/
def row_loop (im : Image) (im_border : Nat × Nat) (switch : Int) :
    List Nat → List Bool × Int × Nat × Nat
  | [] => ([], switch, 0, 0)
  | y :: ys =>
    let p := row_step im im_border y switch
    let r := row_loop im im_border p.2.1 ys
    (p.1 ++ r.1, r.2.1, p.2.2 + r.2.2.1, r.2.2.2 + 1)

/-- `int(s, 2)` for a binary string `s`, most significant bit first
(generic.py line 783). -/
def bitsToNat (bits : List Bool) : Nat :=
  bits.foldl (fun n b => 2 * n + (if b then 1 else 0)) 0

/-- The byte sequence obtained by the framer's slicing
`int(line[i:i + 8], 2)` with `i` stepping by 8 (lines 782-785): the bit
string packed MSB-first into bytes.  The slice `line[i:i + 8]` takes the
next 8 characters (written as 8 explicit cons cells so the recursion is
structural); a trailing slice shorter than 8 bits is parsed as-is. -/
def pack : List Bool → List Nat
  | [] => []
  | b0 :: b1 :: b2 :: b3 :: b4 :: b5 :: b6 :: b7 :: rest =>
    bitsToNat [b0, b1, b2, b3, b4, b5, b6, b7] :: pack rest
  | rest => [bitsToNat rest]

/-- The `while i < len(line)` loop of `_print_image` (lines 782-790),
on the remaining bit string, with the current `buffer` (bytes already
converted but not yet flushed) and `cont` counter.  Each pass converts 8
bits to one byte; when `cont` reaches a multiple of 4 the 4-byte buffer
is flushed as one write and `buffer`/`cont` reset.  Returns (the write
calls made, the buffer left over when the loop exits — which the source
discards without writing). -/
def frame_loop : List Bool → List Nat → Nat → List (List Nat) × List Nat
  | [], buffer, _ => ([], buffer)
  | b0 :: b1 :: b2 :: b3 :: b4 :: b5 :: b6 :: b7 :: rest, buffer, cont =>
    let hex_string := bitsToNat [b0, b1, b2, b3, b4, b5, b6, b7]
    let buffer1 := buffer ++ [hex_string]
    let cont1 := cont + 1
    if cont1 % 4 == 0 then
      let r := frame_loop rest [] 0
      (buffer1 :: r.1, r.2)
    else
      frame_loop rest buffer1 cont1
  | rest, buffer, cont =>
    let hex_string := bitsToNat rest
    let buffer1 := buffer ++ [hex_string]
    let cont1 := cont + 1
    if cont1 % 4 == 0 then
      (buffer1 :: ([] : List (List Nat)), ([] : List Nat))
    else
      ([], buffer1)

/-- `self._image_size['1x1']` = `'\x1d\x76\x30\x00'` (generic.py
lines 71-72): the 4-byte raster-mode preamble. -/
def image_size_1x1 : List Nat := [0x1d, 0x76, 0x30, 0x00]

/-- `_print_image(line, size)` (lines 769-790): the write calls it
makes, in order.  First the preamble, then the 4-byte header
`"%02X%02X%02X%02X" % (((size[0] / size[1]) / 8), 0, size[1], 0)`
decoded from hex (modelled as the 4 field values), then the data writes
of the framing loop.  The buffer left over by the loop is dropped, as in
the source. -/
def print_image (line : List Bool) (size : Nat × Nat) : List (List Nat) :=
  image_size_1x1 ::
    [size.1 / size.2 / 8, 0, size.2, 0] ::
      (frame_loop line [] 0).1

/-- `_convert_and_print_image(im)` (lines 792-837).  The oversize-width
branch only prints a console warning (not a sink write) and is omitted;
`im.size[1] > 255` raises `ValueError` before anything is written, which
is the `Except.error` branch.  Otherwise the padding is computed, the
row loop builds `pix_line` and `img_size`, and `_print_image` performs
all the writes. -/
def convert_and_print_image (im : Image) : Except String (List (List Nat)) :=
  if 255 < im.height then
    Except.error "Image Height larger than 255"
  else
    let im_border := check_image_size im.width
    let r := row_loop im im_border 0 (List.range im.height)
    Except.ok (print_image r.1 (r.2.2.1, r.2.2.2))

/-- The padded row width `leftBits + width + rightBits`. -/
def total_padded_width (w : Nat) : Nat :=
  (check_image_size w).1 + w + (check_image_size w).2

/-- Iterated application of the toggle `switch = (switch - 1) * (-1)`. -/
def flipN : Nat → Int → Int
  | 0, s => s
  | n + 1, s => flipN n ((s - 1) * (-1))

/-- Re-expansion of one byte into its 8 bits, most significant first. -/
def byteToBits (b : Nat) : List Bool :=
  (List.range 8).map (fun i => decide (b / 2 ^ (7 - i) % 2 = 1))

/- ### Theorems -/

/-- C5: the padding calculator.  For `width ≥ 1` not a multiple of 32 it
returns non-negative `(l, r)` with `l + width + r` a multiple of 32 and
`r - l ∈ {0, 1}`; for `width` a multiple of 32 it returns `(0, 0)`. -/
theorem check_image_size_correct :
    (∀ w : Nat, 1 ≤ w → w % 32 ≠ 0 →
      ((check_image_size w).1 + w + (check_image_size w).2) % 32 = 0
      ∧ (check_image_size w).1 ≤ (check_image_size w).2
      ∧ (check_image_size w).2 ≤ (check_image_size w).1 + 1)
    ∧ (∀ w : Nat, w % 32 = 0 → check_image_size w = (0, 0)) := by
  constructor
  · intro w _ hw
    have hne : (w % 32 == 0) = false := by simpa using hw
    unfold check_image_size
    rw [hne]
    simp only [Bool.false_eq_true, if_false]
    by_cases hpar : (32 - w % 32) % 2 == 0
    · rw [if_pos hpar]
      simp only [beq_iff_eq] at hpar
      refine ⟨?_, le_refl _, by omega⟩
      omega
    · rw [if_neg hpar]
      simp only [beq_iff_eq] at hpar
      refine ⟨?_, by omega, by omega⟩
      omega
  · intro w hw
    unfold check_image_size
    rw [if_pos (by simpa using hw)]

/-- C5 witness: concrete instances `width = 33` (odd deficit) and
`width = 64` (multiple of 32). -/
theorem check_image_size_correct_witness :
    (((check_image_size 33).1 + 33 + (check_image_size 33).2) % 32 = 0
      ∧ (check_image_size 33).1 ≤ (check_image_size 33).2
      ∧ (check_image_size 33).2 ≤ (check_image_size 33).1 + 1)
    ∧ check_image_size 64 = (0, 0) :=
  ⟨check_image_size_correct.1 33 (by decide) (by decide),
   check_image_size_correct.2 64 (by decide)⟩

/-- C4: a height above 255 is rejected at the entry point of
`_convert_and_print_image` with the `ValueError` message, before any
write call: the error branch is taken before `_print_image` (the only
writer) runs, so the sink receives zero write calls. -/
theorem height_over_255_rejected (im : Image) (h : 255 < im.height) :
    convert_and_print_image im = Except.error "Image Height larger than 255" := by
  unfold convert_and_print_image
  rw [if_pos h]

/-- C4 witness: a 1x256 image is rejected. -/
theorem height_over_255_rejected_witness :
    convert_and_print_image ⟨1, 256, fun _ _ => (0, 0, 0)⟩
      = Except.error "Image Height larger than 255" :=
  height_over_255_rejected ⟨1, 256, fun _ _ => (0, 0, 0)⟩ (by decide)

/-- C3 counterexample: a width-0, height-1 image is NOT rejected —
`_convert_and_print_image` has no width validation (only a `print`
warning for width > 512), so encoding proceeds and the sink receives the
preamble and the header `[0, 0, 1, 0]`: two write calls, not zero. -/
theorem width_zero_not_rejected :
    convert_and_print_image ⟨0, 1, fun _ _ => (0, 0, 0)⟩
      = Except.ok [[0x1d, 0x76, 0x30, 0x00], [0, 0, 1, 0]] := rfl

/-- Helper: on a width-0 image every row contributes nothing to
`pix_line` and `img_size[0]`, and `switch` never advances. -/
theorem row_loop_width_zero (im : Image) (hw : im.width = 0) (b : Nat × Nat)
    (hb : b = (0, 0)) :
    ∀ (ys : List Nat) (sw : Int), row_loop im b sw ys = ([], sw, 0, ys.length) := by
  subst hb
  intro ys
  induction ys with
  | nil => intro sw; rfl
  | cons y ys ih =>
    intro sw
    have h1 : row_step im (0, 0) y sw = ([], sw, 0) := by
      simp only [row_step, hw, List.range_zero, pixel_loop, List.replicate,
        List.nil_append, List.append_nil]
    simp only [row_loop, h1, ih, List.length_cons, List.nil_append,
      Nat.add_zero, Nat.zero_add]

/-- C3 amended: a width-0 image (any height in 1..255, any pixel data)
is accepted, not rejected; the encoder emits the raster preamble and the
header `[0, 0, height, 0]` (and no data bytes) to the sink. -/
theorem width_zero_accepted (h : Nat) (pix : Nat → Nat → Nat × Nat × Nat)
    (h1 : 1 ≤ h) (h2 : h ≤ 255) :
    convert_and_print_image ⟨0, h, pix⟩
      = Except.ok [image_size_1x1, [0, 0, h, 0]] := by
  have hr := row_loop_width_zero ⟨0, h, pix⟩ rfl (0, 0) rfl (List.range h) 0
  unfold convert_and_print_image
  rw [if_neg (by simp; omega)]
  simp only [show (⟨0, h, pix⟩ : Image).height = h from rfl,
    show check_image_size (⟨0, h, pix⟩ : Image).width = (0, 0) from rfl,
    hr, List.length_range]
  simp [print_image, frame_loop]

/-- C3 amended witness: width 0, height 3. -/
theorem width_zero_accepted_witness :
    convert_and_print_image ⟨0, 3, fun _ _ => (7, 7, 7)⟩
      = Except.ok [image_size_1x1, [0, 0, 3, 0]] :=
  width_zero_accepted 3 (fun _ _ => (7, 7, 7)) (by decide) (by decide)

/-- C8: the complete output for a 32x1 all-black image: the 4-byte
raster preamble `\x1d\x76\x30\x00`, the header `[4, 0, 1, 0]`
(`widthBytesPerRow = 4`, `height = 1`), and the packed row
`0xFF 0xFF 0xFF 0xFF` delivered as one single 4-byte write call. -/
theorem black_32x1_full_output :
    convert_and_print_image ⟨32, 1, fun _ _ => (0, 0, 0)⟩
      = Except.ok [[0x1d, 0x76, 0x30, 0x00], [4, 0, 1, 0],
                   [0xFF, 0xFF, 0xFF, 0xFF]] := rfl

/-- The framing loop of `_print_image`, started with an empty buffer and
an arbitrary reachable state (`cont` equal to the buffer length, below
4), writes exactly the full 4-byte groups of the packed bytes and leaves
the remainder in the buffer, which the source then discards. -/
theorem frame_loop_spec :
    ∀ (n : Nat) (line : List Bool), line.length = 8 * n →
    ∀ (buffer : List Nat) (cont : Nat), cont = buffer.length → cont < 4 →
    (frame_loop line buffer cont).1.flatten
        = (buffer ++ pack line).take (4 * ((cont + n) / 4))
    ∧ (frame_loop line buffer cont).2
        = (buffer ++ pack line).drop (4 * ((cont + n) / 4)) := by
  intro n
  induction n with
  | zero =>
    intro line hline buffer cont hc hlt
    obtain rfl : line = [] := List.length_eq_zero.mp (by omega)
    have h4 : 4 * (cont / 4) = 0 := by omega
    simp [frame_loop, pack, h4]
  | succ n ih =>
    intro line hline buffer cont hc hlt
    rcases line with _ | ⟨b0, _ | ⟨b1, _ | ⟨b2, _ | ⟨b3, _ | ⟨b4, _ | ⟨b5, _ |
        ⟨b6, _ | ⟨b7, rest⟩⟩⟩⟩⟩⟩⟩⟩ <;>
      simp only [List.length_nil, List.length_cons] at hline <;> try omega
    have hrest : rest.length = 8 * n := by omega
    by_cases h3 : cont = 3
    · subst h3
      have hIH := ih rest hrest [] 0 rfl (by omega)
      simp only [List.nil_append, Nat.zero_add] at hIH
      have hlen : (buffer ++ [bitsToNat [b0, b1, b2, b3, b4, b5, b6, b7]]).length = 4 := by
        simp [← hc]
      have harith : 4 * ((3 + (n + 1)) / 4) = 4 + 4 * (n / 4) := by omega
      have htake : ∀ X : List Nat,
          ((buffer ++ [bitsToNat [b0, b1, b2, b3, b4, b5, b6, b7]]) ++ X).take (4 + 4 * (n / 4))
            = (buffer ++ [bitsToNat [b0, b1, b2, b3, b4, b5, b6, b7]]) ++ X.take (4 * (n / 4)) := by
        intro X
        rw [List.take_append_eq_append_take,
          List.take_of_length_le (by rw [hlen]; omega), hlen,
          show 4 + 4 * (n / 4) - 4 = 4 * (n / 4) from by omega]
      have hdrop : ∀ X : List Nat,
          ((buffer ++ [bitsToNat [b0, b1, b2, b3, b4, b5, b6, b7]]) ++ X).drop (4 + 4 * (n / 4))
            = X.drop (4 * (n / 4)) := by
        intro X
        rw [List.drop_append_eq_append_drop,
          List.drop_eq_nil_of_le (by rw [hlen]; omega), hlen, List.nil_append,
          show 4 + 4 * (n / 4) - 4 = 4 * (n / 4) from by omega]
      simp only [frame_loop, pack, show ((3 + 1) % 4 == 0) = true from rfl, if_true, harith]
      rw [show buffer ++ bitsToNat [b0, b1, b2, b3, b4, b5, b6, b7] :: pack rest
            = (buffer ++ [bitsToNat [b0, b1, b2, b3, b4, b5, b6, b7]]) ++ pack rest by simp]
      rw [htake, hdrop]
      constructor
      · rw [List.flatten_cons, hIH.1]
      · exact hIH.2
    · have hcond : ((cont + 1) % 4 == 0) = false := by
        rw [beq_eq_false_iff_ne]
        omega
      have hc1 : cont + 1 = (buffer ++ [bitsToNat [b0, b1, b2, b3, b4, b5, b6, b7]]).length := by
        simp [← hc]
      have hIH := ih rest hrest (buffer ++ [bitsToNat [b0, b1, b2, b3, b4, b5, b6, b7]])
        (cont + 1) hc1 (by omega)
      have harith : (cont + 1) + n = cont + (n + 1) := by omega
      simp only [frame_loop, pack, hcond, Bool.false_eq_true, if_false]
      rw [show buffer ++ bitsToNat [b0, b1, b2, b3, b4, b5, b6, b7] :: pack rest
            = (buffer ++ [bitsToNat [b0, b1, b2, b3, b4, b5, b6, b7]]) ++ pack rest by simp]
      rw [← harith]
      exact hIH

/-- C2 counterexample: for the 8-bit input `11111111` (length a multiple
of 8 but not of 32) the framing loop of `_print_image` performs NO data
write at all — the single packed byte `0xFF` stays in the buffer, which
the source discards when the loop ends, so it never reaches the sink. -/
theorem partial_group_not_flushed :
    pack (List.replicate 8 true) = [255]
    ∧ (frame_loop (List.replicate 8 true) [] 0).1 = []
    ∧ (frame_loop (List.replicate 8 true) [] 0).2 = [255]
    ∧ (frame_loop (List.replicate 8 true) [] 0).1.flatten
        ≠ pack (List.replicate 8 true) := by decide

/-- C2 amended: a final group of fewer than 4 packed bytes is NOT
flushed; the sink receives exactly the full 4-byte groups (the first
`4 * (n / 4)` of the `n` packed bytes) and the trailing partial group
stays in the loop's buffer, which is discarded. -/
theorem partial_group_dropped (n : Nat) (line : List Bool)
    (h : line.length = 8 * n) :
    (frame_loop line [] 0).1.flatten = (pack line).take (4 * (n / 4))
    ∧ (frame_loop line [] 0).2 = (pack line).drop (4 * (n / 4)) := by
  have hs := frame_loop_spec n line h [] 0 rfl (by omega)
  simpa using hs

/-- C2 amended witness: 8 one-bits; the packed byte is left unwritten. -/
theorem partial_group_dropped_witness :
    (frame_loop (List.replicate 8 true) [] 0).1.flatten
        = (pack (List.replicate 8 true)).take (4 * (1 / 4))
    ∧ (frame_loop (List.replicate 8 true) [] 0).2
        = (pack (List.replicate 8 true)).drop (4 * (1 / 4)) :=
  partial_group_dropped 1 (List.replicate 8 true) (by decide)

/-- Helper: re-expanding the byte `int(s, 2)` of an 8-bit string
reproduces the string. -/
theorem byteToBits_bitsToNat (l : List Bool) (h : l.length = 8) :
    byteToBits (bitsToNat l) = l := by
  rcases l with _ | ⟨b0, _ | ⟨b1, _ | ⟨b2, _ | ⟨b3, _ | ⟨b4, _ | ⟨b5, _ |
      ⟨b6, _ | ⟨b7, rest⟩⟩⟩⟩⟩⟩⟩⟩ <;>
    simp only [List.length_nil, List.length_cons] at h <;> try omega
  obtain rfl : rest = [] := List.length_eq_zero.mp (by omega)
  revert b0 b1 b2 b3 b4 b5 b6 b7
  decide

/-- Helper: a bit string of length `8 * n` packs into exactly `n` bytes. -/
theorem pack_length : ∀ (n : Nat) (l : List Bool), l.length = 8 * n →
    (pack l).length = n := by
  intro n
  induction n with
  | zero =>
    intro l hl
    obtain rfl : l = [] := List.length_eq_zero.mp (by omega)
    rfl
  | succ n ih =>
    intro l hl
    rcases l with _ | ⟨b0, _ | ⟨b1, _ | ⟨b2, _ | ⟨b3, _ | ⟨b4, _ | ⟨b5, _ |
        ⟨b6, _ | ⟨b7, rest⟩⟩⟩⟩⟩⟩⟩⟩ <;>
      simp only [List.length_nil, List.length_cons] at hl <;> try omega
    have hrest : rest.length = 8 * n := by omega
    simp only [pack, List.length_cons, ih rest hrest]

/-- Helper: pack-then-unpack round trip on a bit string of length `8 * n`. -/
theorem pack_byteToBits : ∀ (n : Nat) (l : List Bool), l.length = 8 * n →
    (pack l).flatMap byteToBits = l := by
  intro n
  induction n with
  | zero =>
    intro l hl
    obtain rfl : l = [] := List.length_eq_zero.mp (by omega)
    rfl
  | succ n ih =>
    intro l hl
    rcases l with _ | ⟨b0, _ | ⟨b1, _ | ⟨b2, _ | ⟨b3, _ | ⟨b4, _ | ⟨b5, _ |
        ⟨b6, _ | ⟨b7, rest⟩⟩⟩⟩⟩⟩⟩⟩ <;>
      simp only [List.length_nil, List.length_cons] at hl <;> try omega
    have hrest : rest.length = 8 * n := by omega
    simp only [pack, List.flatMap_cons,
      byteToBits_bitsToNat [b0, b1, b2, b3, b4, b5, b6, b7] rfl, ih rest hrest]
    rfl

/-- C9: for a bit string whose length is a multiple of 8, packing it
MSB-first (as the framer's `int(line[i:i + 8], 2)` slicing does) yields
`length / 8` bytes, and re-expanding each byte MSB-first reproduces the
original bit string exactly. -/
theorem pack_roundtrip (l : List Bool) (h : l.length % 8 = 0) :
    (pack l).length = l.length / 8
    ∧ (pack l).flatMap byteToBits = l := by
  have hn : l.length = 8 * (l.length / 8) := by omega
  exact ⟨pack_length (l.length / 8) l hn, pack_byteToBits (l.length / 8) l hn⟩

/-- C9 witness: a concrete 16-bit string round-trips. -/
theorem pack_roundtrip_witness :
    (pack [true, false, true, true, false, false, true, false,
           false, true, true, true, true, false, false, true]).length
      = [true, false, true, true, false, false, true, false,
         false, true, true, true, true, false, false, true].length / 8
    ∧ (pack [true, false, true, true, false, false, true, false,
             false, true, true, true, true, false, false, true]).flatMap byteToBits
      = [true, false, true, true, false, false, true, false,
         false, true, true, true, true, false, false, true] :=
  pack_roundtrip _ (by decide)

/-- Helper: the pixel loop adds exactly one to `img_size[0]` per pixel,
whatever the pixel values and switch state. -/
theorem pixel_loop_count (im : Image) (y : Nat) :
    ∀ (xs : List Nat) (sw : Int), (pixel_loop im y sw xs).2.2 = xs.length := by
  intro xs
  induction xs with
  | nil => intro sw; rfl
  | cons x xs ih =>
    intro sw
    simp [pixel_loop, ih]

/-- Helper: after the row loop, `img_size[0] = rows * paddedRowWidth`
and `img_size[1] = rows`, whatever the pixel values. -/
theorem row_loop_sizes (im : Image) (b : Nat × Nat) :
    ∀ (ys : List Nat) (sw : Int),
    (row_loop im b sw ys).2.2.1 = ys.length * (b.1 + im.width + b.2)
    ∧ (row_loop im b sw ys).2.2.2 = ys.length := by
  intro ys
  induction ys with
  | nil =>
    intro sw
    exact ⟨by simp [row_loop], rfl⟩
  | cons y ys ih =>
    intro sw
    refine ⟨?_, ?_⟩
    · simp only [row_loop, row_step, pixel_loop_count, List.length_range,
        List.length_cons, (ih _).1]
      ring
    · simp only [row_loop, List.length_cons, (ih _).2]

/-- Helper: the padded row width is always a multiple of 32. -/
theorem total_padded_width_mod32 (w : Nat) : total_padded_width w % 32 = 0 := by
  unfold total_padded_width check_image_size
  by_cases h : w % 32 == 0
  · rw [if_pos h]
    simp only [beq_iff_eq] at h
    simp
    omega
  · rw [if_neg h]
    simp only [beq_iff_eq] at h
    by_cases h2 : (32 - w % 32) % 2 == 0
    · rw [if_pos h2]
      simp only [beq_iff_eq] at h2
      simp
      omega
    · rw [if_neg h2]
      simp only [beq_iff_eq] at h2
      simp
      omega

/-- C1: for every image accepted by validation (height in 1..255), the
first byte of the 4-byte header emitted right after the preamble equals
`totalPaddedWidth / 8` — an expression independent of the image height —
because `img_size[0]` accumulates `height * totalPaddedWidth` over the
rows while `img_size[1]` equals `height`, so the source's
`(size[0] / size[1]) / 8` collapses to `totalPaddedWidth / 8`; the
division is exact since `totalPaddedWidth` is a multiple of 32. -/
theorem header_byte_eq_padded_width_div8 (im : Image)
    (h1 : 1 ≤ im.height) (h2 : im.height ≤ 255) :
    (convert_and_print_image im).map (fun ws => ws.take 2)
      = Except.ok [image_size_1x1,
          [total_padded_width im.width / 8, 0, im.height, 0]]
    ∧ total_padded_width im.width % 32 = 0 := by
  refine ⟨?_, total_padded_width_mod32 im.width⟩
  unfold convert_and_print_image
  rw [if_neg (by omega)]
  have hs := row_loop_sizes im (check_image_size im.width) (List.range im.height) 0
  simp only [List.length_range] at hs
  have htpw : (check_image_size im.width).1 + im.width + (check_image_size im.width).2
      = total_padded_width im.width := rfl
  simp only [Except.map, print_image, hs.1, hs.2, htpw, List.take]
  rw [Nat.mul_div_cancel_left _ (by omega : 0 < im.height)]

/-- C1 witness: a 5x2 image; the padded width is 32, the header byte 4. -/
theorem header_byte_eq_padded_width_div8_witness :
    (convert_and_print_image ⟨5, 2, fun _ _ => (0, 0, 0)⟩).map (fun ws => ws.take 2)
      = Except.ok [image_size_1x1, [total_padded_width 5 / 8, 0, 2, 0]]
    ∧ total_padded_width 5 % 32 = 0 :=
  header_byte_eq_padded_width_div8 ⟨5, 2, fun _ _ => (0, 0, 0)⟩ (by decide) (by decide)

/-- Helper: closed form of the three-band threshold loop.  The bands are
`<= 255` (symbol '1'), `<= 510` (symbol 'X', resolved by the switch),
`<= 765` (symbol '0'); a luminance sum above 765 appends nothing (the
verbatim `elif` fallback of the source is unsatisfiable). -/
theorem threshold_loop_eq (c : Nat) (sw : Int) :
    threshold_loop c sw (List.range pattern_len)
      = if c ≤ 255 then [true]
        else if c ≤ 510 then [decide (sw = 1)]
        else if c ≤ 765 then [false]
        else [] := by
  rw [show List.range pattern_len = [0, 1, 2] from rfl]
  simp only [threshold_loop,
    show 255 * 3 / pattern_len * (0 + 1) = 255 from rfl,
    show 255 * 3 / pattern_len * (1 + 1) = 510 from rfl,
    show 255 * 3 / pattern_len * (2 + 1) = 765 from rfl,
    show 255 * 3 / pattern_len * pattern_len = 765 from rfl,
    show (255 * 3 : Nat) = 765 from rfl,
    show im_pattern.getD 0 ' ' = '1' from rfl,
    show im_pattern.getD 1 ' ' = 'X' from rfl,
    show im_pattern.getD 2 ' ' = '0' from rfl,
    show im_pattern.getLastD ' ' = '0' from rfl]
  norm_num
  split_ifs <;> first | rfl | omega | simp_all

/-- Helper: bits produced by the pixel loop when every pixel of the row
resolves to the same bit `v` regardless of the switch. -/
theorem pixel_loop_const (im : Image) (y : Nat) (v : Bool) :
    ∀ (xs : List Nat),
    (∀ x ∈ xs, ∀ sw' : Int,
      threshold_loop (im_color im x y) sw' (List.range pattern_len) = [v]) →
    ∀ sw, (pixel_loop im y sw xs).1 = List.replicate xs.length v := by
  intro xs
  induction xs with
  | nil => intro _ sw; rfl
  | cons x xs ih =>
    intro hv sw
    simp only [pixel_loop, pixel_step, List.length_cons, List.replicate_succ,
      hv x (by simp), ih (fun a ha sw' => hv a (by simp [ha]) sw') _]
    rfl

/-- Helper: `pix_line` when every pixel of the image resolves to the
same bit `v`: each row is left padding, `width` copies of `v`, right
padding. -/
theorem row_loop_const (im : Image) (b : Nat × Nat) (v : Bool) :
    ∀ (ys : List Nat),
    (∀ y ∈ ys, ∀ x, x < im.width → ∀ sw' : Int,
      threshold_loop (im_color im x y) sw' (List.range pattern_len) = [v]) →
    ∀ sw, (row_loop im b sw ys).1
      = ys.flatMap (fun _ =>
          List.replicate b.1 false ++ List.replicate im.width v
            ++ List.replicate b.2 false) := by
  intro ys
  induction ys with
  | nil => intro _ sw; rfl
  | cons y ys ih =>
    intro hv sw
    have hrow := pixel_loop_const im y v (List.range im.width)
      (fun x hx sw' => hv y (by simp) x (List.mem_range.mp hx) sw') sw
    simp only [row_loop, row_step, hrow, List.length_range, List.flatMap_cons,
      ih (fun a ha x hx sw' => hv a (by simp [ha]) x hx sw') _, List.append_assoc]

/-- C7: in a valid all-white image (every pixel `(255,255,255)`, sum
765) every non-padding bit is 0; in an all-black image (`(0,0,0)`, sum
0) every non-padding bit is 1.  Each row of `pix_line` is the left
padding, then `width` copies of the constant bit, then the right
padding. -/
theorem uniform_extreme_images (im : Image) :
    ((∀ x y, x < im.width → y < im.height → im.getpixel x y = (255, 255, 255)) →
      (row_loop im (check_image_size im.width) 0 (List.range im.height)).1
        = (List.range im.height).flatMap (fun _ =>
            List.replicate (check_image_size im.width).1 false
              ++ List.replicate im.width false
              ++ List.replicate (check_image_size im.width).2 false))
    ∧ ((∀ x y, x < im.width → y < im.height → im.getpixel x y = (0, 0, 0)) →
      (row_loop im (check_image_size im.width) 0 (List.range im.height)).1
        = (List.range im.height).flatMap (fun _ =>
            List.replicate (check_image_size im.width).1 false
              ++ List.replicate im.width true
              ++ List.replicate (check_image_size im.width).2 false)) := by
  constructor
  · intro hwhite
    refine row_loop_const im (check_image_size im.width) false (List.range im.height)
      (fun y hy x hx sw' => ?_) 0
    have hc : im_color im x y = 765 := by
      unfold im_color
      rw [hwhite x y hx (List.mem_range.mp hy)]
      rfl
    rw [threshold_loop_eq, hc]
    norm_num
  · intro hblack
    refine row_loop_const im (check_image_size im.width) true (List.range im.height)
      (fun y hy x hx sw' => ?_) 0
    have hc : im_color im x y = 0 := by
      unfold im_color
      rw [hblack x y hx (List.mem_range.mp hy)]
      rfl
    rw [threshold_loop_eq, hc]
    norm_num

/-- C7 witness: concrete 1x1 all-white and all-black images. -/
theorem uniform_extreme_images_witness :
    (row_loop ⟨1, 1, fun _ _ => (255, 255, 255)⟩ (check_image_size 1) 0 (List.range 1)).1
      = (List.range 1).flatMap (fun _ =>
          List.replicate (check_image_size 1).1 false
            ++ List.replicate 1 false
            ++ List.replicate (check_image_size 1).2 false)
    ∧ (row_loop ⟨1, 1, fun _ _ => (0, 0, 0)⟩ (check_image_size 1) 0 (List.range 1)).1
      = (List.range 1).flatMap (fun _ =>
          List.replicate (check_image_size 1).1 false
            ++ List.replicate 1 true
            ++ List.replicate (check_image_size 1).2 false) :=
  ⟨(uniform_extreme_images ⟨1, 1, fun _ _ => (255, 255, 255)⟩).1 (fun _ _ _ _ => rfl),
   (uniform_extreme_images ⟨1, 1, fun _ _ => (0, 0, 0)⟩).2 (fun _ _ _ _ => rfl)⟩

/-- Helper: `flipN` distributes over addition of toggle counts. -/
theorem flipN_add (a b : Nat) : ∀ s : Int, flipN (a + b) s = flipN b (flipN a s) := by
  induction a with
  | zero =>
    intro s
    rw [Nat.zero_add]
    rfl
  | succ a ih =>
    intro s
    rw [show a + 1 + b = (a + b) + 1 from by omega]
    show flipN (a + b) ((s - 1) * (-1)) = flipN b (flipN (a + 1) s)
    rw [ih]
    rfl

/-- Helper: parity of the switch after `n` toggles from 0 or from 1. -/
theorem flipN_parity (n : Nat) :
    flipN n 0 = (if n % 2 = 0 then 0 else 1)
    ∧ flipN n 1 = (if n % 2 = 0 then 1 else 0) := by
  induction n with
  | zero => exact ⟨rfl, rfl⟩
  | succ n ih =>
    constructor
    · have h1 : flipN (n + 1) 0 = flipN n 1 := by
        show flipN n ((0 - 1) * (-1)) = flipN n 1
        norm_num
      rw [h1, ih.2]
      by_cases h : n % 2 = 0
      · rw [if_pos h, if_neg (by omega)]
      · rw [if_neg h, if_pos (by omega)]
    · have h1 : flipN (n + 1) 1 = flipN n 0 := by
        show flipN n ((1 - 1) * (-1)) = flipN n 0
        norm_num
      rw [h1, ih.1]
      by_cases h : n % 2 = 0
      · rw [if_pos h, if_neg (by omega)]
      · rw [if_neg h, if_pos (by omega)]

/-- Helper: the bit emitted for the pixel at global scan index `m`
(0-based) in a uniformly mid-tone image: `1` at even indices. -/
theorem flipN_bit (m : Nat) :
    decide (flipN (m + 1) 0 = 1) = decide (m % 2 = 0) := by
  rw [decide_eq_decide, (flipN_parity (m + 1)).1]
  split_ifs with h <;> omega

/-- Helper: the pixel loop toggles `switch` exactly once per pixel,
whatever the pixel values. -/
theorem pixel_loop_switch (im : Image) (y : Nat) :
    ∀ (xs : List Nat) (sw : Int), (pixel_loop im y sw xs).2.1 = flipN xs.length sw := by
  intro xs
  induction xs with
  | nil => intro sw; rfl
  | cons x xs ih =>
    intro sw
    simp only [pixel_loop, pixel_step, List.length_cons]
    rw [ih]
    rfl

/-- Helper: after processing `rows` rows the switch has toggled exactly
`rows * width` times — once per pixel, never for a padding bit. -/
theorem row_loop_switch (im : Image) (b : Nat × Nat) :
    ∀ (ys : List Nat) (sw : Int),
    (row_loop im b sw ys).2.1 = flipN (ys.length * im.width) sw := by
  intro ys
  induction ys with
  | nil =>
    intro sw
    rw [List.length_nil, Nat.zero_mul]
    rfl
  | cons y ys ih =>
    intro sw
    simp only [row_loop, row_step, List.length_cons]
    rw [pixel_loop_switch, List.length_range, ih,
      show (ys.length + 1) * im.width = im.width + ys.length * im.width from by ring,
      flipN_add]

/-- Helper: the row loop over a concatenation of row lists. -/
theorem row_loop_append (im : Image) (b : Nat × Nat) :
    ∀ (ys zs : List Nat) (sw : Int),
    (row_loop im b sw (ys ++ zs)).1
      = (row_loop im b sw ys).1
        ++ (row_loop im b (row_loop im b sw ys).2.1 zs).1 := by
  intro ys
  induction ys with
  | nil => intro zs sw; rfl
  | cons y ys ih =>
    intro zs sw
    simp only [List.cons_append, row_loop, List.append_eq]
    rw [ih]
    simp [List.append_assoc]

/-- Helper: pixel bits of one row of a uniformly mid-tone image: every
pixel falls in the middle band, so the bit is the freshly toggled
switch. -/
theorem pixel_loop_mid (im : Image) (y : Nat) :
    ∀ (xs : List Nat),
    (∀ x ∈ xs, 255 < im_color im x y ∧ im_color im x y ≤ 510) →
    ∀ sw, (pixel_loop im y sw xs).1
      = (List.range xs.length).map (fun i => decide (flipN (i + 1) sw = 1)) := by
  intro xs
  induction xs with
  | nil => intro _ sw; rfl
  | cons x xs ih =>
    intro hm sw
    have hx := hm x (by simp)
    simp only [pixel_loop, pixel_step, List.length_cons]
    rw [threshold_loop_eq, if_neg (by omega), if_pos (by omega),
      ih (fun a ha => hm a (by simp [ha])) _, List.range_succ_eq_map]
    simp only [List.map_cons, List.map_map]
    rfl

/-- Helper: the non-padding bits of a uniformly mid-tone image form the
strict alternation `1,0,1,0,...` indexed by the global scan position. -/
theorem range_flatMap_alternation (h w : Nat) :
    (List.range h).flatMap (fun y =>
        (List.range w).map (fun x => decide ((y * w + x) % 2 = 0)))
      = (List.range (h * w)).map (fun k => decide (k % 2 = 0)) := by
  induction h with
  | zero => simp
  | succ h ih =>
    rw [List.range_succ, List.flatMap_append, ih,
      show (h + 1) * w = h * w + w from by ring, List.range_add,
      List.map_append, List.map_map]
    simp only [List.flatMap_cons, List.flatMap_nil, List.append_nil]
    rfl

/-- Helper: unconditional structure of `pix_line` — whatever the pixel
values, every row is left zero-padding, then the row's pixel-loop bits,
then right zero-padding, and the switch a row's pixels start from is
`flipN (y * width) sw`, a function of the pixel count alone: the padding
appends never touch the switch. -/
theorem row_loop_structure (im : Image) (b : Nat × Nat) (sw : Int) :
    ∀ hh : Nat, (row_loop im b sw (List.range hh)).1
      = (List.range hh).flatMap (fun y =>
          List.replicate b.1 false
            ++ (pixel_loop im y (flipN (y * im.width) sw) (List.range im.width)).1
            ++ List.replicate b.2 false) := by
  intro hh
  induction hh with
  | zero => rfl
  | succ hh ih =>
    rw [List.range_succ, row_loop_append, ih, row_loop_switch, List.length_range,
      List.flatMap_append]
    congr 1

/-- C6: the dither parity flag advances exactly once per pixel in the
raster scan regardless of the threshold band (first conjunct: for ANY
pixel data and any start switch, the final switch is the start switch
toggled `height * width` times); padding bit positions are always
literal 0 and never advance the flag (second conjunct, also for ANY
pixel data: each row of `pix_line` is left zero-padding, the pixel-loop
bits, right zero-padding, and the switch a row starts from counts only
the pixels before it); and for a uniformly mid-tone image (every
luminance sum strictly above 255 and at most 510) the non-padding bits
in scan order are the strict alternation `1,0,1,0,...` (third
conjunct). -/
theorem mid_tone_alternation (im : Image) (sw : Int) :
    ((row_loop im (check_image_size im.width) sw (List.range im.height)).2.1
        = flipN (im.height * im.width) sw)
    ∧ ((row_loop im (check_image_size im.width) sw (List.range im.height)).1
        = (List.range im.height).flatMap (fun y =>
            List.replicate (check_image_size im.width).1 false
              ++ (pixel_loop im y (flipN (y * im.width) sw) (List.range im.width)).1
              ++ List.replicate (check_image_size im.width).2 false))
    ∧ ((∀ x y, x < im.width → y < im.height →
          255 < im_color im x y ∧ im_color im x y ≤ 510) →
        (row_loop im (check_image_size im.width) 0 (List.range im.height)).1
          = (List.range im.height).flatMap (fun y =>
              List.replicate (check_image_size im.width).1 false
                ++ (List.range im.width).map
                    (fun x => decide ((y * im.width + x) % 2 = 0))
                ++ List.replicate (check_image_size im.width).2 false)
        ∧ (List.range im.height).flatMap (fun y =>
              (List.range im.width).map (fun x => decide ((y * im.width + x) % 2 = 0)))
            = (List.range (im.height * im.width)).map (fun k => decide (k % 2 = 0))) := by
  refine ⟨?_, row_loop_structure im (check_image_size im.width) sw im.height, ?_⟩
  · rw [row_loop_switch, List.length_range]
  · intro hmid
    refine ⟨?_, range_flatMap_alternation im.height im.width⟩
    have main : ∀ hh : Nat, hh ≤ im.height →
        (row_loop im (check_image_size im.width) 0 (List.range hh)).1
          = (List.range hh).flatMap (fun y =>
              List.replicate (check_image_size im.width).1 false
                ++ (List.range im.width).map
                    (fun x => decide ((y * im.width + x) % 2 = 0))
                ++ List.replicate (check_image_size im.width).2 false) := by
      intro hh
      induction hh with
      | zero => intro _; rfl
      | succ hh ih =>
        intro hle
        rw [List.range_succ, row_loop_append, ih (by omega),
          row_loop_switch, List.length_range, List.flatMap_append]
        congr 1
        have hpix := pixel_loop_mid im hh (List.range im.width)
          (fun x hx => hmid x hh (List.mem_range.mp hx) (by omega))
          (flipN (hh * im.width) 0)
        have hfun : (fun i => decide (flipN (i + 1) (flipN (hh * im.width) 0) = 1))
            = (fun x => decide ((hh * im.width + x) % 2 = 0)) := by
          funext i
          rw [← flipN_add,
            show hh * im.width + (i + 1) = (hh * im.width + i) + 1 from by omega,
            flipN_bit]
        simp only [row_loop, row_step, hpix, List.length_range, hfun,
          List.flatMap_cons, List.flatMap_nil, List.append_nil]
    exact main im.height (le_refl _)

/-- C6 witness: a 1x2 uniformly mid-tone image (every pixel
`(100,100,100)`, luminance sum 300), the mid-tone hypothesis discharged
concretely. -/
theorem mid_tone_alternation_witness :
    ((row_loop ⟨1, 2, fun _ _ => (100, 100, 100)⟩ (check_image_size 1) 0 (List.range 2)).2.1
        = flipN (2 * 1) 0)
    ∧ ((row_loop ⟨1, 2, fun _ _ => (100, 100, 100)⟩ (check_image_size 1) 0 (List.range 2)).1
        = (List.range 2).flatMap (fun y =>
            List.replicate (check_image_size 1).1 false
              ++ (pixel_loop ⟨1, 2, fun _ _ => (100, 100, 100)⟩ y (flipN (y * 1) 0)
                    (List.range 1)).1
              ++ List.replicate (check_image_size 1).2 false))
    ∧ ((row_loop ⟨1, 2, fun _ _ => (100, 100, 100)⟩ (check_image_size 1) 0 (List.range 2)).1
        = (List.range 2).flatMap (fun y =>
            List.replicate (check_image_size 1).1 false
              ++ (List.range 1).map (fun x => decide ((y * 1 + x) % 2 = 0))
              ++ List.replicate (check_image_size 1).2 false)
      ∧ (List.range 2).flatMap (fun y =>
            (List.range 1).map (fun x => decide ((y * 1 + x) % 2 = 0)))
          = (List.range (2 * 1)).map (fun k => decide (k % 2 = 0))) := by
  have t := mid_tone_alternation ⟨1, 2, fun _ _ => (100, 100, 100)⟩ 0
  exact ⟨t.1, t.2.1, t.2.2 (fun _ _ _ _ => by norm_num [im_color])⟩

/-- Helper: for any luminance sum in 0..765 the threshold loop appends
exactly one bit — never zero, never more than one. -/
theorem threshold_loop_len_one (c : Nat) (sw : Int) (h : c ≤ 765) :
    (threshold_loop c sw (List.range pattern_len)).length = 1 := by
  rw [threshold_loop_eq]
  split_ifs <;> rfl

/-- Helper: the pixel loop appends exactly one bit per pixel when every
luminance sum is at most 765. -/
theorem pixel_loop_length (im : Image) (y : Nat) :
    ∀ (xs : List Nat), (∀ x ∈ xs, im_color im x y ≤ 765) →
    ∀ sw, (pixel_loop im y sw xs).1.length = xs.length := by
  intro xs
  induction xs with
  | nil => intro _ sw; rfl
  | cons x xs ih =>
    intro hc sw
    simp only [pixel_loop, pixel_step, List.length_append, List.length_cons,
      threshold_loop_len_one _ _ (hc x (by simp)),
      ih (fun a ha => hc a (by simp [ha])) _]
    omega

/-- Helper: `pix_line` has exactly `rows * paddedRowWidth` bits when
every luminance sum is at most 765. -/
theorem row_loop_length (im : Image) (b : Nat × Nat) :
    ∀ (ys : List Nat), (∀ y ∈ ys, ∀ x, x < im.width → im_color im x y ≤ 765) →
    ∀ sw, (row_loop im b sw ys).1.length = ys.length * (b.1 + im.width + b.2) := by
  intro ys
  induction ys with
  | nil =>
    intro _ sw
    simp [row_loop]
  | cons y ys ih =>
    intro hc sw
    simp only [row_loop, row_step, List.length_append, List.length_replicate,
      List.length_cons,
      pixel_loop_length im y (List.range im.width)
        (fun x hx => hc y (by simp) x (List.mem_range.mp hx)) _,
      List.length_range,
      ih (fun a ha x hx => hc a (by simp [ha]) x hx) _]
    ring

/-- C10: for an image whose pixel channels are all in 0..255 (so every
luminance sum is in 0..765) the threshold loop appends exactly one bit
per pixel; the full bit stream has length `height * totalPaddedWidth`, a
multiple of 32; and the framer therefore flushes every packed byte in
full 4-byte groups, terminating with an empty residual buffer. -/
theorem one_bit_per_pixel_alignment (im : Image) (x y : Nat) (sw : Int)
    (hx : x < im.width) (hy : y < im.height)
    (hch : ∀ u v, u < im.width → v < im.height →
      (im.getpixel u v).1 ≤ 255 ∧ (im.getpixel u v).2.1 ≤ 255
        ∧ (im.getpixel u v).2.2 ≤ 255) :
    (threshold_loop (im_color im x y) sw (List.range pattern_len)).length = 1
    ∧ (row_loop im (check_image_size im.width) 0 (List.range im.height)).1.length
        = im.height * total_padded_width im.width
    ∧ total_padded_width im.width % 32 = 0
    ∧ (frame_loop
        (row_loop im (check_image_size im.width) 0 (List.range im.height)).1
        [] 0).1.flatten
        = pack (row_loop im (check_image_size im.width) 0 (List.range im.height)).1
    ∧ (frame_loop
        (row_loop im (check_image_size im.width) 0 (List.range im.height)).1
        [] 0).2 = [] := by
  have hcol : ∀ u v, u < im.width → v < im.height → im_color im u v ≤ 765 := by
    intro u v hu hv
    have := hch u v hu hv
    unfold im_color
    omega
  have hlen : (row_loop im (check_image_size im.width) 0 (List.range im.height)).1.length
      = im.height * total_padded_width im.width := by
    rw [row_loop_length im _ (List.range im.height)
      (fun v hv u hu => hcol u v hu (List.mem_range.mp hv)) 0, List.length_range]
    rfl
  obtain ⟨k, hk⟩ := Nat.dvd_of_mod_eq_zero (total_padded_width_mod32 im.width)
  have hlen8 : (row_loop im (check_image_size im.width) 0 (List.range im.height)).1.length
      = 8 * (4 * (im.height * k)) := by
    rw [hlen, hk]
    ring
  have hpl := pack_length _ _ hlen8
  have hfr := partial_group_dropped _ _ hlen8
  have h44 : 4 * (4 * (im.height * k) / 4) = 4 * (im.height * k) := by omega
  refine ⟨threshold_loop_len_one _ _ (hcol x y hx hy), hlen,
    total_padded_width_mod32 _, ?_, ?_⟩
  · rw [hfr.1, h44, ← hpl, List.take_length]
  · rw [hfr.2, h44, ← hpl, List.drop_length]

/-- C10 witness: a 1x1 all-black image, pixel (0,0). -/
theorem one_bit_per_pixel_alignment_witness :
    (threshold_loop (im_color ⟨1, 1, fun _ _ => (0, 0, 0)⟩ 0 0) 0
        (List.range pattern_len)).length = 1
    ∧ (row_loop ⟨1, 1, fun _ _ => (0, 0, 0)⟩ (check_image_size 1) 0
        (List.range 1)).1.length = 1 * total_padded_width 1
    ∧ total_padded_width 1 % 32 = 0
    ∧ (frame_loop
        (row_loop ⟨1, 1, fun _ _ => (0, 0, 0)⟩ (check_image_size 1) 0
          (List.range 1)).1 [] 0).1.flatten
        = pack (row_loop ⟨1, 1, fun _ _ => (0, 0, 0)⟩ (check_image_size 1) 0
            (List.range 1)).1
    ∧ (frame_loop
        (row_loop ⟨1, 1, fun _ _ => (0, 0, 0)⟩ (check_image_size 1) 0
          (List.range 1)).1 [] 0).2 = [] :=
  one_bit_per_pixel_alignment ⟨1, 1, fun _ _ => (0, 0, 0)⟩ 0 0 0
    (by decide) (by decide) (fun _ _ _ _ => by simp)

end Escpos
